/-
Verification of the chained hash map in `src/hashmap.h`.

The C++ class `HashMap<KeyT, ValT>` is shallowly embedded as a Lean structure:
the bucket array `ChainNode** data` becomes a list of buckets, each bucket's
singly linked chain of nodes becomes a list of key/value pairs (head of the
chain first), and the fields `sz`, `capacity`, `curr`, `curr_idx` are carried
verbatim.  The `curr` node pointer is represented by the chain suffix that
starts at the pointed-to node (the empty list standing for `nullptr`).

`std::hash<KeyT>` is an arbitrary function `hash : K → Nat`, and key equality
`==` is `DecidableEq K`.  The load-factor test
`static_cast<double>(sz) / static_cast<double>(capacity) > 1.5` is embedded as
`2 * sz > 3 * capacity`: for every `sz, capacity < 2^52` both operands and the
quotient comparison against the exactly representable constant `1.5` are exact
in IEEE double, so the two conditions coincide on all attainable states.

Operations that throw `std::out_of_range` (`at`, `erase`) return `Option`,
`none` standing for the thrown KeyNotFound error.
-/
import Mathlib

set_option maxHeartbeats 1000000
set_option linter.unusedSectionVars false
set_option linter.unnecessarySimpa false

namespace HashMapVerif

/-- The state of a `HashMap<KeyT, ValT>` object: bucket array, size, capacity,
and the two iteration-cursor fields.  Each bucket is its chain, head first;
`curr` is the suffix of the current bucket's chain starting at the node the
C++ `curr` pointer designates (`[]` for `nullptr`). -/
structure HashMap (K V : Type) where
  data : List (List (K × V))
  sz : Nat
  capacity : Nat
  curr : List (K × V)
  curr_idx : Nat
deriving DecidableEq, Repr

variable {K V : Type} [DecidableEq K]

/-- `HashMap(size_t capacity)`: `capacity` buckets, all set to `nullptr`,
`sz = 0`.  (The C++ constructor leaves `curr`/`curr_idx` uninitialised; we
pick `[]`/`0`, which no claim depends on since `begin` resets both.)
The default constructor is this with `capacity = 10`. -/
def mkHashMap (K V : Type) (capacity : Nat) : HashMap K V :=
  { data := List.replicate capacity []
    sz := 0
    capacity := capacity
    curr := []
    curr_idx := 0 }

/-- `size()`: the maintained `sz` counter. -/
def size (m : HashMap K V) : Nat :=
  m.sz

/-- `empty()`: whether `sz == 0`. -/
def empty (m : HashMap K V) : Bool :=
  m.sz == 0

/-- The chain scan shared by `insert`/`contains`: walk the chain and report
whether some node's key equals `key`. -/
def chainContains (key : K) : List (K × V) → Bool
  | [] => false
  | (k, _) :: rest => if k = key then true else chainContains key rest

/-- The chain scan of `at`: walk the chain and return the first value stored
under `key`, or `none` (the `out_of_range` throw). -/
def chainFind (key : K) : List (K × V) → Option V
  | [] => none
  | (k, v) :: rest => if k = key then some v else chainFind key rest

/-- The chain scan of `erase`: unlink the first node whose key equals `key`,
returning its value and the chain with that node removed, or `none` (the
`out_of_range` throw) when no node matches. -/
def eraseChain (key : K) : List (K × V) → Option (V × List (K × V))
  | [] => none
  | (k, v) :: rest =>
      if k = key then some (v, rest)
      else
        match eraseChain key rest with
        | none => none
        | some (val, rest') => some (val, (k, v) :: rest')

variable (hash : K → Nat)

/-- The inner loop of `rehash`: relink every node of one old chain, in chain
order, at the head of its recomputed bucket in the new array `nd`. -/
def relinkChain (cap : Nat) : List (K × V) → List (List (K × V)) → List (List (K × V))
  | [], nd => nd
  | (k, v) :: rest, nd =>
      relinkChain cap rest (nd.set (hash k % cap) ((k, v) :: nd.getD (hash k % cap) []))

/-- `rehash(new_capacity)`: fresh all-empty bucket array of `new_capacity`
slots, then every node of every old bucket (old buckets in index order, each
chain in its existing order) is relinked at the head of bucket
`hash(key) % new_capacity` of the new array.  `sz` and the cursor fields are
untouched. -/
def rehash (m : HashMap K V) (new_capacity : Nat) : HashMap K V :=
  { m with
    data := m.data.foldl (fun nd chain => relinkChain hash new_capacity chain nd)
      (List.replicate new_capacity [])
    capacity := new_capacity }

/-- The mutation step of `insert` once the key is known to be absent: link one
new node at the head of bucket `hash(key) % capacity` and increment `sz`. -/
def insertNode (m : HashMap K V) (key : K) (value : V) : HashMap K V :=
  { m with
    data := m.data.set (hash key % m.capacity)
      ((key, value) :: m.data.getD (hash key % m.capacity) [])
    sz := m.sz + 1 }

/-- `insert(key, value)`: scan bucket `hash(key) % capacity`; if the key is
already there the call returns with no change at all.  Otherwise a single new
node is linked at the head of that bucket, `sz` is incremented, and if the
load factor then exceeds 1.5 (`2 * sz > 3 * capacity`, see the header comment)
the table is rehashed to double capacity. -/
def insert (m : HashMap K V) (key : K) (value : V) : HashMap K V :=
  if chainContains key (m.data.getD (hash key % m.capacity) []) then m
  else
    let m1 := insertNode hash m key value
    if 2 * m1.sz > 3 * m1.capacity then rehash hash m1 (m1.capacity * 2) else m1

/-- `at(key)`: scan bucket `hash(key) % capacity`; `some` of the first value
stored under `key`, `none` for the `out_of_range` throw. -/
def atKey (m : HashMap K V) (key : K) : Option V :=
  chainFind key (m.data.getD (hash key % m.capacity) [])

/-- `contains(key)`: same scan as `at`, presence only. -/
def contains (m : HashMap K V) (key : K) : Bool :=
  chainContains key (m.data.getD (hash key % m.capacity) [])

/-- `erase(key)`: scan bucket `hash(key) % capacity` tracking the previous
node; on a match unlink that node, decrement `sz` and return the value; on no
match, `none` (the `out_of_range` throw) with the map unchanged. -/
def erase (m : HashMap K V) (key : K) : Option (V × HashMap K V) :=
  match eraseChain key (m.data.getD (hash key % m.capacity) []) with
  | none => none
  | some (val, chain') =>
      some (val,
        { m with data := m.data.set (hash key % m.capacity) chain', sz := m.sz - 1 })

/-- `clear()`: free every chain, reset every bucket to `nullptr`, reset `sz`
to 0.  The bucket array itself (hence `capacity`) is untouched. -/
def clear (m : HashMap K V) : HashMap K V :=
  { m with data := List.replicate m.capacity [], sz := 0 }

/-- The chain-copy loop shared by the copy constructor and `operator=`: new
nodes are appended through the tail pointer `ptr`, so the copied chain holds
the same pairs in the same order. -/
def copyChain : List (K × V) → List (K × V)
  | [] => []
  | (k, v) :: rest => (k, v) :: copyChain rest

/-- The copy constructor: same capacity, same `sz`, every chain rebuilt out of
brand-new nodes.  (The C++ copy constructor leaves `curr`/`curr_idx`
uninitialised; we pick `[]`/`0`.) -/
def copy (m : HashMap K V) : HashMap K V :=
  { data := m.data.map copyChain
    sz := m.sz
    capacity := m.capacity
    curr := []
    curr_idx := 0 }

/-- `operator=`: `isSelf` models the address test `this == &other`; when it
holds the assignment returns `*this` untouched.  Otherwise the target is
cleared, its array freed, and capacity/size/chains are rebuilt from `other`
(`curr`/`curr_idx` of the target are not touched by `operator=`). -/
def assign (t s : HashMap K V) (isSelf : Bool) : HashMap K V :=
  if isSelf then t
  else { t with data := s.data.map copyChain, sz := s.sz, capacity := s.capacity }

/-- The bucket scan of `begin`: starting at `i`, advance past empty buckets
while `i < cap`; `fuel` bounds the loop (taking `fuel = cap` is enough). -/
def firstNonEmptyFrom (data : List (List (K × V))) (cap : Nat) : Nat → Nat → Nat
  | i, 0 => i
  | i, fuel + 1 =>
      if i < cap && (data.getD i []).isEmpty then firstNonEmptyFrom data cap (i + 1) fuel
      else i

/-- `begin()`: reset `curr_idx` to 0, scan forward to the first non-empty
bucket and point `curr` at its head; if every bucket is empty, `curr` stays
`nullptr` and `curr_idx` stops at `capacity`. -/
def begin (m : HashMap K V) : HashMap K V :=
  let j := firstNonEmptyFrom m.data m.capacity 0 m.capacity
  { m with
    curr_idx := j
    curr := if j < m.capacity then m.data.getD j [] else [] }

/-- The advancing loop of `next`: `curr = curr->next` has already been taken
(`c` is the rest of the chain); while the chain is exhausted and
`++curr_idx < capacity`, load the next bucket.  `fuel = cap` bounds the loop. -/
def advanceCursor (data : List (List (K × V))) (cap : Nat) :
    List (K × V) → Nat → Nat → List (K × V) × Nat
  | c, i, 0 => (c, i)
  | c, i, fuel + 1 =>
      if c.isEmpty then
        if i + 1 < cap then advanceCursor data cap (data.getD (i + 1) []) (i + 1) fuel
        else (c, i + 1)
      else (c, i)

/-- `next(key, value)`: if `curr` is `nullptr` return `false` (`none`);
otherwise yield the current node's key and value, step `curr` to the next
node and, if the chain is exhausted, to the head of the next non-empty
bucket. -/
def next (m : HashMap K V) : Option ((K × V) × HashMap K V) :=
  match m.curr with
  | [] => none
  | (k, v) :: rest =>
      let p := advanceCursor m.data m.capacity rest m.curr_idx m.capacity
      some ((k, v), { m with curr := p.1, curr_idx := p.2 })

/-- Run `insert` over a list of key/value pairs, left to right. -/
def insertList (m : HashMap K V) : List (K × V) → HashMap K V
  | [] => m
  | (k, v) :: rest => insertList (insert hash m k v) rest

/-- Collect the pairs yielded by repeated `next` calls (at most `fuel` of
them), stopping at the first `false`. -/
def runIter : HashMap K V → Nat → List (K × V)
  | _, 0 => []
  | m, fuel + 1 =>
      match next m with
      | none => []
      | some (p, m') => p :: runIter m' fuel

/-- A concrete stand-in for `std::hash<std::string>` used in test fixtures
(the development is parametric in the hash function). -/
def strHash (s : String) : Nat :=
  s.length

/-- A concrete stand-in for `std::hash<size_t>` used in test fixtures. -/
def natHash (n : Nat) : Nat :=
  n

/-- The spec's concrete scenario: ("a",1), ("b",2), ("c",3) inserted into a
capacity-2 table. -/
def exampleMap3 : HashMap String Nat :=
  insertList strHash (mkHashMap String Nat 2) [("a", 1), ("b", 2), ("c", 3)]

/-- Well-formedness of a reachable table state: positive capacity, the bucket
array has exactly `capacity` slots, `sz` counts the nodes, no two nodes share
a key, and every node sits in the bucket its hashed key selects. -/
def WF (m : HashMap K V) : Prop :=
  0 < m.capacity ∧
  m.data.length = m.capacity ∧
  m.sz = m.data.flatten.length ∧
  (m.data.flatten.map Prod.fst).Nodup ∧
  ∀ i, i < m.capacity → ∀ p ∈ m.data.getD i [], hash p.1 % m.capacity = i

instance (m : HashMap K V) : Decidable (WF hash m) := by
  unfold WF
  infer_instance

/-- The keys currently stored in the table, bucket by bucket. -/
def keys (m : HashMap K V) : List K :=
  m.data.flatten.map Prod.fst

/-- The pairs an iteration still has to yield: the rest of the current chain,
then everything in the buckets after `curr_idx`. -/
def toVisit (m : HashMap K V) : List (K × V) :=
  m.curr ++ ((m.data.drop (m.curr_idx + 1)).flatten)

/-- One public mutating/cursor operation, for stating whole-lifetime
invariants.  `del` and `nxt` keep the state the code leaves behind (for
`erase`, a throw leaves the table untouched); `cpy` continues on the copy. -/
inductive MapOp (K V : Type) where
  | ins (k : K) (v : V)
  | del (k : K)
  | clr
  | cpy
  | beg
  | nxt

/-- Apply one public operation to the table state. -/
def applyOp (m : HashMap K V) : MapOp K V → HashMap K V
  | .ins k v => insert hash m k v
  | .del k =>
      match erase hash m k with
      | none => m
      | some (_, m') => m'
  | .clr => clear m
  | .cpy => copy m
  | .beg => begin m
  | .nxt =>
      match next m with
      | none => m
      | some (_, m') => m'

/-- Apply a whole sequence of public operations, oldest first. -/
def applyOps (m : HashMap K V) (ops : List (MapOp K V)) : HashMap K V :=
  ops.foldl (applyOp hash) m

/-- A cursor-only operation, for the iterator-purity claim. -/
inductive CursorOp where
  | beg
  | nxt

/-- Apply a sequence of `begin`/`next` calls, oldest first. -/
def runCursor (m : HashMap K V) : List CursorOp → HashMap K V
  | [] => m
  | .beg :: ops => runCursor (begin m) ops
  | .nxt :: ops =>
      match next m with
      | none => runCursor m ops
      | some (_, m') => runCursor m' ops

/-! ### List helpers -/

theorem getD_set_self {α : Type} (l : List (List α)) (i : Nat) (h : i < l.length)
    (c : List α) : (l.set i c).getD i [] = c := by
  simp [List.getD_eq_getElem?_getD, List.getElem?_set_self, h]

theorem getD_set_ne {α : Type} (l : List (List α)) (i j : Nat) (h : i ≠ j)
    (c : List α) : (l.set i c).getD j [] = l.getD j [] := by
  simp [List.getD_eq_getElem?_getD, List.getElem?_set_ne h]

theorem getD_replicate_nil {α : Type} (n i : Nat) :
    (List.replicate n ([] : List α)).getD i [] = [] := by
  rcases Nat.lt_or_ge i n with h | h
  · simp [List.getD_eq_getElem?_getD, List.getElem?_replicate, h]
  · simp [List.getD_eq_getElem?_getD, List.getElem?_eq_none (by simpa using h :
      (List.replicate n ([] : List α)).length ≤ i)]

theorem getD_eq_nil_of_le {α : Type} (l : List (List α)) (i : Nat)
    (h : l.length ≤ i) : l.getD i [] = [] := by
  simp [List.getD_eq_getElem?_getD, List.getElem?_eq_none h]

theorem flatten_drop_succ {α : Type} (l : List (List α)) (i : Nat) (h : i < l.length) :
    (l.drop i).flatten = l.getD i [] ++ (l.drop (i + 1)).flatten := by
  rw [List.drop_eq_getElem_cons h, List.flatten_cons,
    List.getD_eq_getElem?_getD, List.getElem?_eq_getElem h]
  rfl

theorem flatten_decomp {α : Type} (l : List (List α)) (i : Nat) (h : i < l.length) :
    l.flatten = (l.take i).flatten ++ l.getD i [] ++ (l.drop (i + 1)).flatten := by
  conv_lhs => rw [← List.take_append_drop i l]
  rw [List.flatten_append, flatten_drop_succ l i h, List.append_assoc]

theorem flatten_set {α : Type} (l : List (List α)) (i : Nat) (h : i < l.length)
    (c : List α) :
    (l.set i c).flatten = (l.take i).flatten ++ c ++ (l.drop (i + 1)).flatten := by
  rw [List.set_eq_take_append_cons_drop, if_pos h, List.flatten_append,
    List.flatten_cons, List.append_assoc]

theorem flatten_set_cons_perm {α : Type} (l : List (List α)) (i : Nat)
    (h : i < l.length) (x : α) :
    (l.set i (x :: l.getD i [])).flatten.Perm (x :: l.flatten) := by
  rw [flatten_set l i h, flatten_decomp l i h]
  simp only [List.cons_append, List.append_assoc]
  exact List.perm_middle

theorem mem_flatten_iff {α : Type} (l : List (List α)) (p : α) :
    p ∈ l.flatten ↔ ∃ i, i < l.length ∧ p ∈ l.getD i [] := by
  rw [List.mem_flatten]
  constructor
  · rintro ⟨c, hc, hp⟩
    obtain ⟨i, hi, rfl⟩ := List.mem_iff_getElem.1 hc
    exact ⟨i, hi, by
      rwa [List.getD_eq_getElem?_getD, List.getElem?_eq_getElem hi]⟩
  · rintro ⟨i, hi, hp⟩
    refine ⟨l[i], List.getElem_mem hi, ?_⟩
    rwa [List.getD_eq_getElem?_getD, List.getElem?_eq_getElem hi] at hp

/-! ### Chain-scan lemmas -/

theorem chainContains_iff (key : K) (c : List (K × V)) :
    chainContains key c = true ↔ key ∈ c.map Prod.fst := by
  induction c with
  | nil => simp [chainContains]
  | cons p rest ih =>
      obtain ⟨k, v⟩ := p
      by_cases h : k = key
      · subst h
        simp [chainContains]
      · simp [chainContains, h, ih, Ne.symm h]

theorem chainFind_eq_none (key : K) (c : List (K × V)) :
    chainFind key c = none ↔ key ∉ c.map Prod.fst := by
  induction c with
  | nil => simp [chainFind]
  | cons p rest ih =>
      obtain ⟨k, v⟩ := p
      by_cases h : k = key
      · subst h
        simp [chainFind]
      · simp [chainFind, h, ih, Ne.symm h]

theorem chainContains_eq_isSome (key : K) (c : List (K × V)) :
    chainContains key c = (chainFind key c).isSome := by
  induction c with
  | nil => simp [chainContains, chainFind]
  | cons p rest ih =>
      obtain ⟨k, v⟩ := p
      by_cases h : k = key <;> simp [chainContains, chainFind, h, ih]

theorem chainFind_mem {key : K} {v : V} {c : List (K × V)}
    (h : chainFind key c = some v) : (key, v) ∈ c := by
  induction c with
  | nil => simp [chainFind] at h
  | cons p rest ih =>
      obtain ⟨k, w⟩ := p
      by_cases hk : k = key
      · subst hk
        simp [chainFind] at h
        subst h
        exact List.mem_cons_self _ _
      · simp [chainFind, hk] at h
        exact List.mem_cons_of_mem _ (ih h)

theorem chainFind_of_mem_nodup {key : K} {v : V} {c : List (K × V)}
    (hnd : (c.map Prod.fst).Nodup) (h : (key, v) ∈ c) : chainFind key c = some v := by
  induction c with
  | nil => simp at h
  | cons p rest ih =>
      obtain ⟨k, w⟩ := p
      simp only [List.map_cons, List.nodup_cons] at hnd
      rcases List.mem_cons.1 h with heq | hmem
      · obtain ⟨rfl, rfl⟩ := Prod.mk.injEq .. ▸ heq
        simp [chainFind]
      · have hk : k ≠ key := by
          rintro rfl
          exact hnd.1 (List.mem_map.2 ⟨(k, v), hmem, rfl⟩)
        simp [chainFind, hk, ih hnd.2 hmem]

/-! ### eraseChain lemmas -/

theorem eraseChain_eq_none (key : K) (c : List (K × V)) :
    eraseChain key c = none ↔ chainContains key c = false := by
  induction c with
  | nil => simp [eraseChain, chainContains]
  | cons p rest ih =>
      obtain ⟨k, v⟩ := p
      by_cases h : k = key
      · subst h
        simp [eraseChain, chainContains]
      · cases hrec : eraseChain key rest with
        | none => simp [eraseChain, chainContains, h, hrec, ← ih, hrec]
        | some pr => simp [eraseChain, chainContains, h, hrec, ← ih, hrec]

theorem eraseChain_perm {key : K} {v : V} {c c' : List (K × V)}
    (h : eraseChain key c = some (v, c')) : c.Perm ((key, v) :: c') := by
  induction c generalizing c' with
  | nil => simp [eraseChain] at h
  | cons p rest ih =>
      obtain ⟨k, w⟩ := p
      by_cases hk : k = key
      · subst hk
        simp [eraseChain] at h
        obtain ⟨rfl, rfl⟩ := h
        exact List.Perm.refl _
      · simp only [eraseChain, if_neg hk] at h
        cases hrec : eraseChain key rest with
        | none => rw [hrec] at h; simp at h
        | some pr =>
            obtain ⟨w', rest'⟩ := pr
            rw [hrec] at h
            simp at h
            obtain ⟨rfl, rfl⟩ := h
            exact ((ih hrec).cons _).trans (List.Perm.swap _ _ _)

theorem eraseChain_find_ne {key k' : K} {v : V} {c c' : List (K × V)}
    (hne : k' ≠ key) (h : eraseChain key c = some (v, c')) :
    chainFind k' c' = chainFind k' c := by
  induction c generalizing c' with
  | nil => simp [eraseChain] at h
  | cons p rest ih =>
      obtain ⟨k, w⟩ := p
      by_cases hk : k = key
      · subst hk
        simp [eraseChain] at h
        obtain ⟨rfl, rfl⟩ := h
        have hkk : k ≠ k' := fun hh => hne hh.symm
        simp [chainFind, hkk]
      · simp only [eraseChain, if_neg hk] at h
        cases hrec : eraseChain key rest with
        | none => rw [hrec] at h; simp at h
        | some pr =>
            obtain ⟨w', rest'⟩ := pr
            rw [hrec] at h
            simp at h
            obtain ⟨rfl, rfl⟩ := h
            by_cases hkk : k = k' <;> simp [chainFind, hkk, ih hrec]

/-! ### Characterising `at`/`contains` on well-formed tables -/

theorem getD_mem {α : Type} (l : List (List α)) (i : Nat) (h : i < l.length) :
    l.getD i [] ∈ l := by
  rw [List.getD_eq_getElem?_getD, List.getElem?_eq_getElem h]
  exact List.getElem_mem h

theorem bucket_nodup {m : HashMap K V} (hwf : WF hash m) (i : Nat) :
    ((m.data.getD i []).map Prod.fst).Nodup := by
  obtain ⟨hpos, hlen, hsz, hnd, hbk⟩ := hwf
  rcases Nat.lt_or_ge i m.data.length with h | h
  · exact hnd.sublist ((List.sublist_flatten_of_mem (getD_mem m.data i h)).map Prod.fst)
  · rw [getD_eq_nil_of_le m.data i h]
    simp

theorem contains_eq_isSome (m : HashMap K V) (k : K) :
    contains hash m k = (atKey hash m k).isSome :=
  chainContains_eq_isSome k _

theorem atKey_some_iff {m : HashMap K V} (hwf : WF hash m) (k : K) (v : V) :
    atKey hash m k = some v ↔ (k, v) ∈ m.data.flatten := by
  obtain ⟨hpos, hlen, hsz, hnd, hbk⟩ := hwf
  constructor
  · intro h
    have hmem := chainFind_mem h
    exact (mem_flatten_iff m.data (k, v)).2
      ⟨hash k % m.capacity, by rw [hlen]; exact Nat.mod_lt _ hpos, hmem⟩
  · intro h
    obtain ⟨i, hi, hmem⟩ := (mem_flatten_iff m.data (k, v)).1 h
    have hib : hash k % m.capacity = i := hbk i (hlen ▸ hi) (k, v) hmem
    rw [atKey, hib]
    exact chainFind_of_mem_nodup (bucket_nodup hash ⟨hpos, hlen, hsz, hnd, hbk⟩ i) hmem

theorem mem_bucket_iff {m : HashMap K V} (hwf : WF hash m) (k : K) :
    k ∈ (m.data.getD (hash k % m.capacity) []).map Prod.fst ↔
      k ∈ m.data.flatten.map Prod.fst := by
  obtain ⟨hpos, hlen, hsz, hnd, hbk⟩ := hwf
  constructor
  · intro h
    obtain ⟨p, hp, hfst⟩ := List.mem_map.1 h
    have hi : hash k % m.capacity < m.data.length := by
      rw [hlen]; exact Nat.mod_lt _ hpos
    exact List.mem_map.2 ⟨p, (mem_flatten_iff _ p).2 ⟨_, hi, hp⟩, hfst⟩
  · intro h
    obtain ⟨p, hp, hfst⟩ := List.mem_map.1 h
    obtain ⟨i, hi, hpi⟩ := (mem_flatten_iff _ p).1 hp
    have hib := hbk i (hlen ▸ hi) p hpi
    rw [hfst] at hib
    exact List.mem_map.2 ⟨p, hib ▸ hpi, hfst⟩

theorem atKey_none_iff {m : HashMap K V} (hwf : WF hash m) (k : K) :
    atKey hash m k = none ↔ k ∉ m.data.flatten.map Prod.fst := by
  rw [atKey, chainFind_eq_none]
  exact not_congr (mem_bucket_iff hash hwf k)

theorem contains_iff {m : HashMap K V} (hwf : WF hash m) (k : K) :
    contains hash m k = true ↔ k ∈ m.data.flatten.map Prod.fst := by
  rw [contains_eq_isSome]
  cases h : atKey hash m k with
  | none =>
      simp only [Option.isSome_none, Bool.false_eq_true, false_iff]
      exact (atKey_none_iff hash hwf k).1 h
  | some v =>
      simp only [Option.isSome_some, true_iff]
      exact List.mem_map.2 ⟨(k, v), (atKey_some_iff hash hwf k v).1 h, rfl⟩

theorem contains_false_iff {m : HashMap K V} (hwf : WF hash m) (k : K) :
    contains hash m k = false ↔ k ∉ m.data.flatten.map Prod.fst := by
  rw [← Bool.not_eq_true, not_iff_not]
  exact contains_iff hash hwf k

/-! ### Construction and `clear` -/

theorem WF_mkHashMap (c : Nat) (hc : 0 < c) : WF hash (mkHashMap K V c) := by
  refine ⟨hc, by simp [mkHashMap], by simp [mkHashMap], by simp [mkHashMap], ?_⟩
  intro i hi p hp
  rw [mkHashMap] at hp
  simp only at hp
  rw [getD_replicate_nil] at hp
  simp at hp

theorem contains_mkHashMap (c : Nat) (k : K) :
    contains hash (mkHashMap K V c) k = false := by
  rw [contains, mkHashMap]
  simp only
  rw [getD_replicate_nil]
  rfl

theorem atKey_clear (m : HashMap K V) (k : K) : atKey hash (clear m) k = none := by
  rw [atKey, clear]
  simp only
  rw [getD_replicate_nil]
  rfl

theorem contains_clear (m : HashMap K V) (k : K) :
    contains hash (clear m) k = false := by
  rw [contains_eq_isSome, atKey_clear]
  rfl

theorem WF_clear {m : HashMap K V} (hwf : WF hash m) : WF hash (clear m) := by
  obtain ⟨hpos, hlen, hsz, hnd, hbk⟩ := hwf
  refine ⟨hpos, by simp [clear], by simp [clear], by simp [clear], ?_⟩
  intro i hi p hp
  rw [clear] at hp
  simp only at hp
  rw [getD_replicate_nil] at hp
  simp at hp

/-! ### `rehash` -/

theorem relinkChain_length (cap : Nat) (chain : List (K × V))
    (nd : List (List (K × V))) :
    (relinkChain hash cap chain nd).length = nd.length := by
  induction chain generalizing nd with
  | nil => rfl
  | cons p rest ih =>
      obtain ⟨k, v⟩ := p
      rw [relinkChain, ih]
      simp

theorem relinkChain_flatten_perm (cap : Nat) (hcap : 0 < cap)
    (chain : List (K × V)) (nd : List (List (K × V))) (hnd : cap ≤ nd.length) :
    (relinkChain hash cap chain nd).flatten.Perm (chain ++ nd.flatten) := by
  induction chain generalizing nd with
  | nil => simp [relinkChain]
  | cons p rest ih =>
      obtain ⟨k, v⟩ := p
      rw [relinkChain]
      have hidx : hash k % cap < nd.length := Nat.lt_of_lt_of_le (Nat.mod_lt _ hcap) hnd
      have h1 := ih (nd.set (hash k % cap) ((k, v) :: nd.getD (hash k % cap) []))
        (by simpa using hnd)
      refine h1.trans ?_
      have h2 := flatten_set_cons_perm nd (hash k % cap) hidx (k, v)
      refine ((h2.append_left rest).trans ?_)
      simpa using List.perm_middle

theorem relinkChain_bucket (cap : Nat) (hcap : 0 < cap) (chain : List (K × V))
    (nd : List (List (K × V))) (hnd : cap ≤ nd.length)
    (hb : ∀ i, ∀ p ∈ nd.getD i [], hash p.1 % cap = i) :
    ∀ i, ∀ p ∈ (relinkChain hash cap chain nd).getD i [], hash p.1 % cap = i := by
  induction chain generalizing nd with
  | nil => exact hb
  | cons q rest ih =>
      obtain ⟨k, v⟩ := q
      rw [relinkChain]
      have hidx : hash k % cap < nd.length := Nat.lt_of_lt_of_le (Nat.mod_lt _ hcap) hnd
      refine ih _ (by simpa using hnd) ?_
      intro i p hp
      by_cases hii : hash k % cap = i
      · subst hii
        rw [getD_set_self nd _ hidx] at hp
        rcases List.mem_cons.1 hp with rfl | hp'
        · rfl
        · exact hb _ p hp'
      · rw [getD_set_ne nd _ i hii] at hp
        exact hb i p hp

theorem foldl_relink_length (cap : Nat) (buckets : List (List (K × V)))
    (nd : List (List (K × V))) :
    (buckets.foldl (fun nd chain => relinkChain hash cap chain nd) nd).length =
      nd.length := by
  induction buckets generalizing nd with
  | nil => rfl
  | cons c rest ih => rw [List.foldl_cons, ih, relinkChain_length]

theorem foldl_relink_flatten_perm (cap : Nat) (hcap : 0 < cap)
    (buckets : List (List (K × V))) (nd : List (List (K × V)))
    (hnd : cap ≤ nd.length) :
    (buckets.foldl (fun nd chain => relinkChain hash cap chain nd) nd).flatten.Perm
      (buckets.flatten ++ nd.flatten) := by
  induction buckets generalizing nd with
  | nil => simp
  | cons c rest ih =>
      rw [List.foldl_cons]
      have h1 := ih (relinkChain hash cap c nd) (by rw [relinkChain_length]; exact hnd)
      refine h1.trans ?_
      have h2 := relinkChain_flatten_perm hash cap hcap c nd hnd
      refine (h2.append_left rest.flatten).trans ?_
      rw [List.flatten_cons, List.append_assoc]
      exact List.perm_append_comm_assoc _ _ _

theorem foldl_relink_bucket (cap : Nat) (hcap : 0 < cap)
    (buckets : List (List (K × V))) (nd : List (List (K × V)))
    (hnd : cap ≤ nd.length)
    (hb : ∀ i, ∀ p ∈ nd.getD i [], hash p.1 % cap = i) :
    ∀ i, ∀ p ∈ (buckets.foldl (fun nd chain => relinkChain hash cap chain nd)
      nd).getD i [], hash p.1 % cap = i := by
  induction buckets generalizing nd with
  | nil => exact hb
  | cons c rest ih =>
      rw [List.foldl_cons]
      exact ih _ (by rw [relinkChain_length]; exact hnd)
        (relinkChain_bucket hash cap hcap c nd hnd hb)

theorem rehash_capacity (m : HashMap K V) (nc : Nat) :
    (rehash hash m nc).capacity = nc := rfl

theorem rehash_sz (m : HashMap K V) (nc : Nat) : (rehash hash m nc).sz = m.sz := rfl

theorem rehash_data_length (m : HashMap K V) (nc : Nat) :
    (rehash hash m nc).data.length = nc := by
  rw [rehash]
  simp only
  rw [foldl_relink_length]
  simp

theorem rehash_flatten_perm (m : HashMap K V) (nc : Nat) (hnc : 0 < nc) :
    (rehash hash m nc).data.flatten.Perm m.data.flatten := by
  rw [rehash]
  simp only
  have h := foldl_relink_flatten_perm hash nc hnc m.data
    (List.replicate nc []) (by simp)
  simpa using h

theorem rehash_bucket (m : HashMap K V) (nc : Nat) (hnc : 0 < nc) :
    ∀ i, ∀ p ∈ (rehash hash m nc).data.getD i [], hash p.1 % nc = i := by
  rw [rehash]
  simp only
  refine foldl_relink_bucket hash nc hnc m.data (List.replicate nc []) (by simp) ?_
  intro i p hp
  rw [getD_replicate_nil] at hp
  simp at hp

theorem WF_rehash {m : HashMap K V} (hwf : WF hash m) (nc : Nat) (hnc : 0 < nc) :
    WF hash (rehash hash m nc) := by
  obtain ⟨hpos, hlen, hsz, hnd, hbk⟩ := hwf
  have hperm := rehash_flatten_perm hash m nc hnc
  refine ⟨by rw [rehash_capacity]; exact hnc,
    by rw [rehash_data_length, rehash_capacity],
    by rw [rehash_sz, hperm.length_eq, hsz],
    (hperm.map Prod.fst).nodup_iff.2 hnd, ?_⟩
  intro i hi p hp
  rw [rehash_capacity]
  exact rehash_bucket hash m nc hnc i p hp

theorem atKey_rehash {m : HashMap K V} (hwf : WF hash m) (nc : Nat) (hnc : 0 < nc)
    (k : K) : atKey hash (rehash hash m nc) k = atKey hash m k := by
  have hwf' := WF_rehash hash hwf nc hnc
  have hperm := rehash_flatten_perm hash m nc hnc
  cases h : atKey hash m k with
  | none =>
      rw [atKey_none_iff hash hwf' k]
      intro hk
      exact (atKey_none_iff hash hwf k).1 h ((hperm.map Prod.fst).mem_iff.1 hk)
  | some v =>
      rw [atKey_some_iff hash hwf' k v]
      exact hperm.mem_iff.2 ((atKey_some_iff hash hwf k v).1 h)

theorem contains_rehash {m : HashMap K V} (hwf : WF hash m) (nc : Nat)
    (hnc : 0 < nc) (k : K) :
    contains hash (rehash hash m nc) k = contains hash m k := by
  rw [contains_eq_isSome, contains_eq_isSome, atKey_rehash hash hwf nc hnc]

/-! ### `insert` -/

theorem insert_of_contains {m : HashMap K V} {k : K} (v : V)
    (h : contains hash m k = true) : insert hash m k v = m := by
  rw [insert, contains] at *
  rw [h]
  rfl

theorem insert_eq_of_not_contains {m : HashMap K V} {k : K} (v : V)
    (h : contains hash m k = false) :
    insert hash m k v =
      if 2 * (m.sz + 1) > 3 * m.capacity
      then rehash hash (insertNode hash m k v) (m.capacity * 2)
      else insertNode hash m k v := by
  rw [insert, contains] at *
  rw [h]
  rfl

theorem insertNode_flatten_perm {m : HashMap K V} (hwf : WF hash m) (k : K)
    (v : V) :
    (insertNode hash m k v).data.flatten.Perm ((k, v) :: m.data.flatten) := by
  have hidx : hash k % m.capacity < m.data.length := by
    rw [hwf.2.1]; exact Nat.mod_lt _ hwf.1
  exact flatten_set_cons_perm m.data _ hidx (k, v)

theorem WF_insertNode {m : HashMap K V} {k : K} (hwf : WF hash m)
    (hk : contains hash m k = false) (v : V) : WF hash (insertNode hash m k v) := by
  have hperm := insertNode_flatten_perm hash hwf k v
  obtain ⟨hpos, hlen, hsz, hnd, hbk⟩ := hwf
  have hidx : hash k % m.capacity < m.data.length := by
    rw [hlen]; exact Nat.mod_lt _ hpos
  have hknot : k ∉ m.data.flatten.map Prod.fst :=
    (contains_false_iff hash ⟨hpos, hlen, hsz, hnd, hbk⟩ k).1 hk
  refine ⟨hpos, by simpa [insertNode] using hlen,
    by rw [hperm.length_eq]; simpa [insertNode] using congrArg Nat.succ hsz,
    (hperm.map Prod.fst).nodup_iff.2
      (by rw [List.map_cons]; exact List.nodup_cons.2 ⟨hknot, hnd⟩), ?_⟩
  intro i hi p hp
  rw [insertNode] at hp
  simp only at hp
  by_cases hii : hash k % m.capacity = i
  · subst hii
    rw [getD_set_self m.data _ hidx] at hp
    rcases List.mem_cons.1 hp with rfl | hp'
    · simpa [insertNode]
    · simpa [insertNode] using hbk _ hi p hp'
  · rw [getD_set_ne m.data _ i hii] at hp
    simpa [insertNode] using hbk i hi p hp

theorem atKey_insertNode_self {m : HashMap K V} {k : K} (hwf : WF hash m)
    (v : V) : atKey hash (insertNode hash m k v) k = some v := by
  have hidx : hash k % m.capacity < m.data.length := by
    rw [hwf.2.1]; exact Nat.mod_lt _ hwf.1
  rw [atKey, insertNode]
  simp only
  rw [getD_set_self m.data _ hidx, chainFind, if_pos rfl]

theorem atKey_insertNode_ne {m : HashMap K V} {k k' : K} (hwf : WF hash m)
    (hne : k' ≠ k) (v : V) :
    atKey hash (insertNode hash m k v) k' = atKey hash m k' := by
  have hidx : hash k % m.capacity < m.data.length := by
    rw [hwf.2.1]; exact Nat.mod_lt _ hwf.1
  rw [atKey, atKey, insertNode]
  simp only
  by_cases hii : hash k % m.capacity = hash k' % m.capacity
  · rw [← hii, getD_set_self m.data _ hidx, chainFind,
      if_neg (fun hh : k = k' => hne hh.symm), hii]
  · rw [getD_set_ne m.data _ _ hii]

theorem WF_insert {m : HashMap K V} (hwf : WF hash m) (k : K) (v : V) :
    WF hash (insert hash m k v) := by
  by_cases h : contains hash m k
  · rw [insert_of_contains hash v h]
    exact hwf
  · have h' : contains hash m k = false := by simpa using h
    rw [insert_eq_of_not_contains hash v h']
    split
    · exact WF_rehash hash (WF_insertNode hash hwf h' v) _
        (by have := hwf.1; omega)
    · exact WF_insertNode hash hwf h' v

theorem atKey_insert_self_new {m : HashMap K V} {k : K} (hwf : WF hash m)
    (hk : contains hash m k = false) (v : V) :
    atKey hash (insert hash m k v) k = some v := by
  rw [insert_eq_of_not_contains hash v hk]
  split
  · rw [atKey_rehash hash (WF_insertNode hash hwf hk v) _ (by have := hwf.1; omega)]
    exact atKey_insertNode_self hash hwf v
  · exact atKey_insertNode_self hash hwf v

theorem atKey_insert_ne {m : HashMap K V} {k k' : K} (hwf : WF hash m)
    (hne : k' ≠ k) (v : V) :
    atKey hash (insert hash m k v) k' = atKey hash m k' := by
  by_cases h : contains hash m k
  · rw [insert_of_contains hash v h]
  · have h' : contains hash m k = false := by simpa using h
    rw [insert_eq_of_not_contains hash v h']
    split
    · rw [atKey_rehash hash (WF_insertNode hash hwf h' v) _ (by have := hwf.1; omega)]
      exact atKey_insertNode_ne hash hwf hne v
    · exact atKey_insertNode_ne hash hwf hne v

theorem atKey_insert {m : HashMap K V} (hwf : WF hash m) (k k' : K) (v : V) :
    atKey hash (insert hash m k v) k' =
      (atKey hash m k').or (if k' = k then some v else none) := by
  by_cases hne : k' = k
  · subst hne
    cases h : contains hash m k' with
    | false =>
        rw [atKey_insert_self_new hash hwf h v]
        have : atKey hash m k' = none := by
          rw [contains_eq_isSome] at h
          exact Option.not_isSome_iff_eq_none.1 (by simp [h])
        rw [this]
        simp [Option.or]
    | true =>
        rw [insert_of_contains hash v h]
        have : (atKey hash m k').isSome = true := by rw [← contains_eq_isSome]; exact h
        obtain ⟨w, hw⟩ := Option.isSome_iff_exists.1 this
        rw [hw]
        rfl
  · rw [atKey_insert_ne hash hwf hne v, if_neg hne]
    cases atKey hash m k' <;> rfl

theorem eraseChain_find {key : K} {v : V} {c c' : List (K × V)}
    (h : eraseChain key c = some (v, c')) : chainFind key c = some v := by
  induction c generalizing c' with
  | nil => simp [eraseChain] at h
  | cons p rest ih =>
      obtain ⟨k, w⟩ := p
      by_cases hk : k = key
      · subst hk
        simp [eraseChain] at h
        rw [chainFind, if_pos rfl, h.1]
      · simp only [eraseChain, if_neg hk] at h
        cases hrec : eraseChain key rest with
        | none => rw [hrec] at h; simp at h
        | some pr =>
            obtain ⟨w', rest'⟩ := pr
            rw [hrec] at h
            simp at h
            rw [chainFind, if_neg hk]
            rw [h.1] at hrec
            exact ih hrec

theorem sz_insert_new {m : HashMap K V} {k : K} (hk : contains hash m k = false)
    (v : V) : (insert hash m k v).sz = m.sz + 1 := by
  rw [insert_eq_of_not_contains hash v hk]
  split <;> rfl

theorem capacity_insert_new {m : HashMap K V} {k : K}
    (hk : contains hash m k = false) (v : V) :
    (insert hash m k v).capacity =
      if 2 * (m.sz + 1) > 3 * m.capacity then m.capacity * 2 else m.capacity := by
  rw [insert_eq_of_not_contains hash v hk]
  split <;> rfl

/-! ### `erase` -/

theorem erase_none_iff (m : HashMap K V) (k : K) :
    erase hash m k = none ↔ contains hash m k = false := by
  rw [erase, contains]
  cases hec : eraseChain k (m.data.getD (hash k % m.capacity) []) with
  | none =>
      simp only [true_iff]
      exact (eraseChain_eq_none k _).1 hec
  | some pr =>
      obtain ⟨v, c'⟩ := pr
      simp only [reduceCtorEq, false_iff]
      intro hcf
      rw [(eraseChain_eq_none k _).2 hcf] at hec
      exact Option.noConfusion hec

theorem erase_spec {m : HashMap K V} {k : K} {v : V} (hwf : WF hash m)
    (hv : atKey hash m k = some v) :
    ∃ m', erase hash m k = some (v, m') ∧ WF hash m' ∧
      m'.capacity = m.capacity ∧ m'.sz + 1 = m.sz ∧
      contains hash m' k = false ∧
      (∀ k', k' ≠ k → atKey hash m' k' = atKey hash m k') ∧
      m.data.flatten.Perm ((k, v) :: m'.data.flatten) := by
  obtain ⟨hpos, hlen, hsz, hnd, hbk⟩ := hwf
  have hidx : hash k % m.capacity < m.data.length := by
    rw [hlen]; exact Nat.mod_lt _ hpos
  have hfind : chainFind k (m.data.getD (hash k % m.capacity) []) = some v := hv
  cases hec : eraseChain k (m.data.getD (hash k % m.capacity) []) with
  | none =>
      have h1 := (eraseChain_eq_none k _).1 hec
      rw [chainContains_eq_isSome, hfind] at h1
      simp at h1
  | some pr =>
      obtain ⟨w, c'⟩ := pr
      have hw : w = v := by
        have h1 := eraseChain_find hec
        rw [hfind] at h1
        exact (Option.some.inj h1).symm
      rw [hw] at hec
      have hccons := eraseChain_perm hec
      -- the state after the unlink
      refine ⟨{ m with data := m.data.set (hash k % m.capacity) c', sz := m.sz - 1 },
        by rw [erase, hec], ?_⟩
      have hflat : m.data.flatten.Perm
          ((k, v) :: (m.data.set (hash k % m.capacity) c').flatten) := by
        rw [flatten_decomp m.data _ hidx, flatten_set m.data _ hidx c']
        simp only [List.append_assoc]
        refine ((hccons.append_right _).append_left _).trans ?_
        simp only [List.cons_append]
        exact List.perm_middle
      have hsz1 : m.sz = (m.data.set (hash k % m.capacity) c').flatten.length + 1 := by
        rw [hsz, hflat.length_eq, List.length_cons]
      have hnd' : ((k :: ((m.data.set (hash k % m.capacity) c').flatten.map
          Prod.fst))).Nodup := by
        have := (hflat.map Prod.fst).nodup_iff.1 hnd
        simpa using this
      have hknot : k ∉ (m.data.set (hash k % m.capacity) c').flatten.map Prod.fst :=
        (List.nodup_cons.1 hnd').1
      have hmemc' : ∀ p ∈ c', p ∈ m.data.getD (hash k % m.capacity) [] := by
        intro p hp
        exact hccons.mem_iff.2 (List.mem_cons_of_mem _ hp)
      have hwf' : WF hash
          { m with data := m.data.set (hash k % m.capacity) c', sz := m.sz - 1 } := by
        refine ⟨hpos, by simpa using hlen, ?_, ?_, ?_⟩
        · simp only
          omega
        · simp only
          exact (List.nodup_cons.1 hnd').2
        · intro i hi p hp
          simp only at hp ⊢
          by_cases hii : hash k % m.capacity = i
          · subst hii
            rw [getD_set_self m.data _ hidx] at hp
            exact hbk _ hi p (hmemc' p hp)
          · rw [getD_set_ne m.data _ i hii] at hp
            exact hbk i hi p hp
      refine ⟨hwf', rfl, by show m.sz - 1 + 1 = m.sz; omega, ?_, ?_, hflat⟩
      · rw [contains]
        show chainContains k
          ((m.data.set (hash k % m.capacity) c').getD (hash k % m.capacity) []) = false
        rw [getD_set_self m.data _ hidx, ← Bool.not_eq_true, chainContains_iff]
        intro hkmem
        obtain ⟨p, hp, hfst⟩ := List.mem_map.1 hkmem
        refine hknot (List.mem_map.2 ⟨p, ?_, hfst⟩)
        exact (mem_flatten_iff _ p).2 ⟨_, by simpa using hidx, by
          rwa [getD_set_self m.data _ hidx]⟩
      · intro k' hne
        rw [atKey, atKey]
        simp only
        by_cases hii : hash k % m.capacity = hash k' % m.capacity
        · rw [← hii, getD_set_self m.data _ hidx]
          exact eraseChain_find_ne hne hec
        · rw [getD_set_ne m.data _ _ hii]

theorem erase_shape {m m' : HashMap K V} {k : K} {v : V}
    (h : erase hash m k = some (v, m')) :
    m'.capacity = m.capacity ∧ m'.sz = m.sz - 1 := by
  rw [erase] at h
  cases hec : eraseChain k (m.data.getD (hash k % m.capacity) []) with
  | none => rw [hec] at h; exact Option.noConfusion h
  | some pr =>
      obtain ⟨w, c'⟩ := pr
      rw [hec] at h
      simp only [Option.some.injEq, Prod.mk.injEq] at h
      rw [← h.2]
      exact ⟨rfl, rfl⟩

/-! ### `insertList` -/

theorem or_none_right (a : Option V) : a.or none = a := by
  cases a <;> rfl

theorem or_assoc_opt (a b c : Option V) : (a.or b).or c = a.or (b.or c) := by
  cases a <;> rfl

theorem isSome_or_opt (a b : Option V) : (a.or b).isSome = (a.isSome || b.isSome) := by
  cases a <;> rfl

theorem WF_insertList {m : HashMap K V} (hwf : WF hash m) (ps : List (K × V)) :
    WF hash (insertList hash m ps) := by
  induction ps generalizing m with
  | nil => exact hwf
  | cons p rest ih =>
      obtain ⟨k, v⟩ := p
      exact ih (WF_insert hash hwf k v)

theorem atKey_insertList {m : HashMap K V} (hwf : WF hash m) (ps : List (K × V))
    (k : K) :
    atKey hash (insertList hash m ps) k = (atKey hash m k).or (chainFind k ps) := by
  induction ps generalizing m with
  | nil => rw [insertList, chainFind, or_none_right]
  | cons p rest ih =>
      obtain ⟨k0, v0⟩ := p
      rw [insertList, ih (WF_insert hash hwf k0 v0), atKey_insert hash hwf k0 k v0,
        or_assoc_opt, chainFind]
      congr 1
      by_cases h : k0 = k
      · subst h
        rw [if_pos rfl, if_pos rfl]
        rfl
      · rw [if_neg h, if_neg (fun hh : k = k0 => h hh.symm)]
        rfl

theorem contains_insertList {m : HashMap K V} (hwf : WF hash m) (ps : List (K × V))
    (k : K) :
    contains hash (insertList hash m ps) k =
      (contains hash m k || chainContains k ps) := by
  rw [contains_eq_isSome, atKey_insertList hash hwf ps k, isSome_or_opt,
    contains_eq_isSome, chainContains_eq_isSome]

theorem sz_insertList_fresh (c : Nat) (hc : 0 < c) (ps : List (K × V)) :
    (insertList hash (mkHashMap K V c) ps).sz = (ps.map Prod.fst).toFinset.card := by
  have hwf0 := WF_mkHashMap hash c (K := K) (V := V) hc
  have hwf := WF_insertList hash hwf0 ps
  obtain ⟨hpos, hlen, hsz, hnd, hbk⟩ := hwf
  rw [hsz, ← List.length_map _ Prod.fst,
    ← List.toFinset_card_of_nodup hnd]
  congr 1
  ext x
  simp only [List.mem_toFinset]
  have h1 := contains_insertList hash hwf0 ps x
  have h2 := contains_iff hash (WF_insertList hash hwf0 ps) x
  rw [contains_mkHashMap, Bool.false_or] at h1
  rw [h1, chainContains_iff] at h2
  rw [← h2]

/-! ### Shape facts for `begin`/`next`/`copy` -/

theorem begin_shape (m : HashMap K V) :
    (begin m).data = m.data ∧ (begin m).sz = m.sz ∧
      (begin m).capacity = m.capacity := ⟨rfl, rfl, rfl⟩

theorem next_shape {m m' : HashMap K V} {p : K × V} (h : next m = some (p, m')) :
    m'.data = m.data ∧ m'.sz = m.sz ∧ m'.capacity = m.capacity := by
  rw [next] at h
  cases hc : m.curr with
  | nil => rw [hc] at h; exact Option.noConfusion h
  | cons q rest =>
      obtain ⟨k, v⟩ := q
      rw [hc] at h
      simp only [Option.some.injEq, Prod.mk.injEq] at h
      rw [← h.2]
      exact ⟨rfl, rfl, rfl⟩

theorem atKey_congr {m m' : HashMap K V} (hd : m'.data = m.data)
    (hc : m'.capacity = m.capacity) (k : K) : atKey hash m' k = atKey hash m k := by
  rw [atKey, atKey, hd, hc]

theorem contains_congr {m m' : HashMap K V} (hd : m'.data = m.data)
    (hc : m'.capacity = m.capacity) (k : K) :
    contains hash m' k = contains hash m k := by
  rw [contains, contains, hd, hc]

theorem runCursor_pure (m : HashMap K V) (ops : List CursorOp) :
    (runCursor m ops).data = m.data ∧ (runCursor m ops).sz = m.sz ∧
      (runCursor m ops).capacity = m.capacity := by
  induction ops generalizing m with
  | nil => exact ⟨rfl, rfl, rfl⟩
  | cons op rest ih =>
      cases op with
      | beg => exact ih (begin m)
      | nxt =>
          rw [runCursor]
          cases hn : next m with
          | none => exact ih m
          | some pr =>
              obtain ⟨p, m'⟩ := pr
              obtain ⟨h1, h2, h3⟩ := next_shape hn
              obtain ⟨g1, g2, g3⟩ := ih m'
              exact ⟨g1.trans h1, g2.trans h2, g3.trans h3⟩

/-! ### The load-factor invariant -/

theorem insert_capacity_or (m : HashMap K V) (k : K) (v : V) :
    (insert hash m k v).capacity = m.capacity ∨
      (insert hash m k v).capacity = m.capacity * 2 := by
  by_cases h : contains hash m k
  · left
    rw [insert_of_contains hash v h]
  · have h' : contains hash m k = false := by simpa using h
    rw [capacity_insert_new hash h' v]
    split
    · right; rfl
    · left; rfl

theorem applyOp_bound {m : HashMap K V} (h1 : 0 < m.capacity)
    (h2 : 2 * m.sz ≤ 3 * m.capacity) (op : MapOp K V) :
    0 < (applyOp hash m op).capacity ∧
      2 * (applyOp hash m op).sz ≤ 3 * (applyOp hash m op).capacity := by
  cases op with
  | ins k v =>
      rw [applyOp]
      by_cases h : contains hash m k
      · rw [insert_of_contains hash v h]
        exact ⟨h1, h2⟩
      · have h' : contains hash m k = false := by simpa using h
        rw [insert_eq_of_not_contains hash v h']
        split
        · rename_i hcond
          have hc2 : 2 * (m.sz + 1) > 3 * m.capacity := hcond
          constructor
          · show 0 < m.capacity * 2
            omega
          · show 2 * (m.sz + 1) ≤ 3 * (m.capacity * 2)
            omega
        · rename_i hcond
          have hc2 : ¬ 2 * (m.sz + 1) > 3 * m.capacity := hcond
          exact ⟨h1, by show 2 * (m.sz + 1) ≤ 3 * m.capacity; omega⟩
  | del k =>
      rw [applyOp]
      cases he : erase hash m k with
      | none => exact ⟨h1, h2⟩
      | some pr =>
          obtain ⟨v, m'⟩ := pr
          obtain ⟨hc, hs⟩ := erase_shape hash he
          rw [hc, hs]
          exact ⟨h1, by omega⟩
  | clr => exact ⟨h1, by show 2 * 0 ≤ 3 * m.capacity; omega⟩
  | cpy => exact ⟨h1, h2⟩
  | beg => exact ⟨h1, h2⟩
  | nxt =>
      rw [applyOp]
      cases hn : next m with
      | none => exact ⟨h1, h2⟩
      | some pr =>
          obtain ⟨p, m'⟩ := pr
          obtain ⟨hd, hs, hc⟩ := next_shape hn
          rw [hc, hs]
          exact ⟨h1, h2⟩

theorem applyOps_bound {m : HashMap K V} (h1 : 0 < m.capacity)
    (h2 : 2 * m.sz ≤ 3 * m.capacity) (ops : List (MapOp K V)) :
    0 < (applyOps hash m ops).capacity ∧
      2 * (applyOps hash m ops).sz ≤ 3 * (applyOps hash m ops).capacity := by
  induction ops generalizing m with
  | nil => exact ⟨h1, h2⟩
  | cons op rest ih =>
      rw [applyOps, List.foldl_cons]
      obtain ⟨g1, g2⟩ := applyOp_bound hash h1 h2 op
      exact ih g1 g2

/-! ### The iteration cursor -/

theorem firstNonEmptyFrom_spec (data : List (List (K × V))) (cap : Nat)
    (hlen : data.length = cap) :
    ∀ fuel i, cap ≤ i + fuel →
      ((data.drop (firstNonEmptyFrom data cap i fuel)).flatten =
        (data.drop i).flatten) ∧
      (firstNonEmptyFrom data cap i fuel < cap →
        data.getD (firstNonEmptyFrom data cap i fuel) [] ≠ []) ∧
      (¬ firstNonEmptyFrom data cap i fuel < cap → (data.drop i).flatten = []) := by
  intro fuel
  induction fuel with
  | zero =>
      intro i hi
      rw [firstNonEmptyFrom]
      have hle : cap ≤ i := by omega
      have hdrop : data.drop i = [] := List.drop_eq_nil_of_le (by omega)
      exact ⟨rfl, fun hlt => absurd hlt (by omega), fun _ => by rw [hdrop]; rfl⟩
  | succ fuel ih =>
      intro i hi
      rw [firstNonEmptyFrom]
      by_cases hcond : (decide (i < cap) && (data.getD i []).isEmpty) = true
      · rw [if_pos hcond]
        rw [Bool.and_eq_true, decide_eq_true_eq] at hcond
        obtain ⟨hic, hbe⟩ := hcond
        have hnil : data.getD i [] = [] := List.isEmpty_iff.1 hbe
        have hstep : (data.drop i).flatten = (data.drop (i + 1)).flatten := by
          rw [flatten_drop_succ data i (by omega), hnil]
          rfl
        obtain ⟨g1, g2, g3⟩ := ih (i + 1) (by omega)
        exact ⟨g1.trans hstep.symm, g2, fun hn => hstep.trans (g3 hn)⟩
      · rw [if_neg hcond]
        rw [Bool.and_eq_true, decide_eq_true_eq] at hcond
        push_neg at hcond
        refine ⟨rfl, fun hlt hnil => ?_, fun hn => ?_⟩
        · refine hcond hlt ?_
          rw [hnil]
          rfl
        · rw [List.drop_eq_nil_of_le (by omega)]
          rfl

theorem advanceCursor_visit (data : List (List (K × V))) (cap : Nat)
    (hlen : data.length = cap) :
    ∀ fuel (c : List (K × V)) i, cap ≤ i + fuel →
      (advanceCursor data cap c i fuel).1 ++
        (data.drop ((advanceCursor data cap c i fuel).2 + 1)).flatten =
      c ++ (data.drop (i + 1)).flatten := by
  intro fuel
  induction fuel with
  | zero => intro c i hi; rfl
  | succ fuel ih =>
      intro c i hi
      rw [advanceCursor]
      cases c with
      | cons p rest => rfl
      | nil =>
          simp only [List.isEmpty_nil, if_true]
          by_cases hic : i + 1 < cap
          · rw [if_pos hic]
            have hstep := ih (data.getD (i + 1) []) (i + 1) (by omega)
            rw [hstep, ← flatten_drop_succ data (i + 1) (by omega)]
            rfl
          · rw [if_neg hic]
            simp only [List.nil_append]
            rw [List.drop_eq_nil_of_le (by omega), List.drop_eq_nil_of_le (by omega)]

theorem advanceCursor_exhausted (data : List (List (K × V))) (cap : Nat) :
    ∀ fuel (c : List (K × V)) i, cap ≤ i + fuel →
      (advanceCursor data cap c i fuel).1 = [] →
      cap ≤ (advanceCursor data cap c i fuel).2 := by
  intro fuel
  induction fuel with
  | zero =>
      intro c i hi _
      show cap ≤ i
      omega
  | succ fuel ih =>
      intro c i hi hres
      rw [advanceCursor] at hres ⊢
      cases c with
      | cons p rest => exact absurd hres (by simp)
      | nil =>
          simp only [List.isEmpty_nil, if_true] at hres ⊢
          by_cases hic : i + 1 < cap
          · rw [if_pos hic] at hres ⊢
            exact ih _ (i + 1) (by omega) hres
          · rw [if_neg hic] at hres ⊢
            omega

theorem next_of_curr_nil {m : HashMap K V} (h : m.curr = []) : next m = none := by
  rw [next, h]

theorem next_of_curr_cons {m : HashMap K V} {k : K} {v : V} {rest : List (K × V)}
    (h : m.curr = (k, v) :: rest) :
    next m = some ((k, v),
      { m with
        curr := (advanceCursor m.data m.capacity rest m.curr_idx m.capacity).1
        curr_idx := (advanceCursor m.data m.capacity rest m.curr_idx m.capacity).2 }) := by
  rw [next, h]

theorem runIter_toVisit :
    ∀ (fuel : Nat) (m : HashMap K V), m.data.length = m.capacity →
      (m.curr = [] → m.capacity ≤ m.curr_idx) →
      (toVisit m).length ≤ fuel → runIter m fuel = toVisit m := by
  intro fuel
  induction fuel with
  | zero =>
      intro m hlen hcinv hfl
      rw [runIter]
      exact (List.eq_nil_of_length_eq_zero (by omega)).symm
  | succ fuel ih =>
      intro m hlen hcinv hfl
      rw [runIter]
      cases hc : m.curr with
      | nil =>
          rw [next_of_curr_nil hc]
          have : toVisit m = [] := by
            rw [toVisit, hc, List.nil_append,
              List.drop_eq_nil_of_le (by have := hcinv hc; omega)]
            rfl
          rw [this]
      | cons p rest =>
          obtain ⟨k, v⟩ := p
          rw [next_of_curr_cons hc]
          have hvisit := advanceCursor_visit m.data m.capacity hlen m.capacity rest
            m.curr_idx (by omega)
          have htv : toVisit m = (k, v) :: (rest ++ (m.data.drop (m.curr_idx + 1)).flatten) := by
            rw [toVisit, hc]
            rfl
          have ih2 := ih
            { m with
              curr := (advanceCursor m.data m.capacity rest m.curr_idx m.capacity).1
              curr_idx := (advanceCursor m.data m.capacity rest m.curr_idx m.capacity).2 }
            hlen
            (fun hnil => advanceCursor_exhausted m.data m.capacity m.capacity rest
              m.curr_idx (by omega) hnil)
            (by
              show ((advanceCursor m.data m.capacity rest m.curr_idx m.capacity).1 ++
                (m.data.drop ((advanceCursor m.data m.capacity rest m.curr_idx
                  m.capacity).2 + 1)).flatten).length ≤ fuel
              rw [hvisit]
              have := congrArg List.length htv
              simp only [List.length_cons] at this
              omega)
          show (k, v) :: runIter
              { m with
                curr := (advanceCursor m.data m.capacity rest m.curr_idx m.capacity).1
                curr_idx := (advanceCursor m.data m.capacity rest m.curr_idx
                  m.capacity).2 }
              fuel = toVisit m
          rw [ih2, htv]
          exact congrArg (List.cons (k, v)) hvisit

theorem begin_toVisit {m : HashMap K V} (hlen : m.data.length = m.capacity) :
    toVisit (begin m) = m.data.flatten ∧
      ((begin m).curr = [] → m.capacity ≤ (begin m).curr_idx) := by
  obtain ⟨g1, g2, g3⟩ := firstNonEmptyFrom_spec m.data m.capacity hlen m.capacity 0
    (by omega)
  by_cases hj : firstNonEmptyFrom m.data m.capacity 0 m.capacity < m.capacity
  · constructor
    · show (if firstNonEmptyFrom m.data m.capacity 0 m.capacity < m.capacity
          then m.data.getD (firstNonEmptyFrom m.data m.capacity 0 m.capacity) []
          else []) ++
        (m.data.drop (firstNonEmptyFrom m.data m.capacity 0 m.capacity + 1)).flatten =
        m.data.flatten
      rw [if_pos hj, ← flatten_drop_succ m.data _ (by omega), g1, List.drop_zero]
    · intro hnil
      have hnil' : (if firstNonEmptyFrom m.data m.capacity 0 m.capacity < m.capacity
          then m.data.getD (firstNonEmptyFrom m.data m.capacity 0 m.capacity) []
          else []) = [] := hnil
      rw [if_pos hj] at hnil'
      exact absurd hnil' (g2 hj)
  · constructor
    · show (if firstNonEmptyFrom m.data m.capacity 0 m.capacity < m.capacity
          then m.data.getD (firstNonEmptyFrom m.data m.capacity 0 m.capacity) []
          else []) ++
        (m.data.drop (firstNonEmptyFrom m.data m.capacity 0 m.capacity + 1)).flatten =
        m.data.flatten
      rw [if_neg hj, List.nil_append, List.drop_eq_nil_of_le (by omega),
        List.flatten_nil]
      have h0 := g3 hj
      rw [List.drop_zero] at h0
      exact h0.symm
    · intro _
      show m.capacity ≤ firstNonEmptyFrom m.data m.capacity 0 m.capacity
      omega

/-! ### `copy`/`assign` support -/

theorem copyChain_eq (c : List (K × V)) : copyChain c = c := by
  induction c with
  | nil => rfl
  | cons p rest ih =>
      obtain ⟨k, v⟩ := p
      rw [copyChain, ih]

theorem map_copyChain (l : List (List (K × V))) : l.map copyChain = l := by
  induction l with
  | nil => rfl
  | cons c rest ih => rw [List.map_cons, copyChain_eq, ih]

theorem atKey_mkHashMap (c : Nat) (k : K) :
    atKey hash (mkHashMap K V c) k = none := by
  rw [atKey, mkHashMap]
  simp only
  rw [getD_replicate_nil]
  rfl

theorem none_or_left (b : Option V) : (none : Option V).or b = b := rfl

/-! ### The claims -/

/-- C1: `insert` is first-write-wins: if `at(k)` currently returns `v1` then
`insert(k, v2)` leaves the table completely unchanged (as a state equality,
this covers `at(k)` still returning `v1`, the size being unchanged, and no
rehash happening); and over every sequence of inserts into a freshly
constructed table, `size()` equals the number of distinct keys inserted. -/
theorem claim1_insert_first_write_wins (m : HashMap K V) (k : K) (v1 v2 : V)
    (hpresent : atKey hash m k = some v1) (c : Nat) (hc : 0 < c)
    (ps : List (K × V)) :
    insert hash m k v2 = m ∧
    size (insertList hash (mkHashMap K V c) ps) =
      (ps.map Prod.fst).toFinset.card := by
  constructor
  · refine insert_of_contains hash v2 ?_
    rw [contains_eq_isSome, hpresent]
    rfl
  · exact sz_insertList_fresh hash c hc ps

/-- Witness for C1: in a capacity-3 table holding 1 ↦ 10, a second insert on
key 1 is a no-op, and a 3-insert sequence with one duplicate key yields
size 2. -/
theorem claim1_witness :
    (atKey natHash (insertList natHash (mkHashMap Nat Nat 3) [(1, 10)]) 1 =
        some 10 ∧ 0 < 3) ∧
    (insert natHash (insertList natHash (mkHashMap Nat Nat 3) [(1, 10)]) 1 99 =
        insertList natHash (mkHashMap Nat Nat 3) [(1, 10)] ∧
      size (insertList natHash (mkHashMap Nat Nat 3) [(1, 5), (2, 6), (1, 7)]) =
        ([(1, 5), (2, 6), (1, 7)].map Prod.fst).toFinset.card) :=
  ⟨⟨by decide, by decide⟩,
    claim1_insert_first_write_wins natHash
      (insertList natHash (mkHashMap Nat Nat 3) [(1, 10)]) 1 10 99 (by decide) 3
      (by decide) [(1, 5), (2, 6), (1, 7)]⟩

/-- C2: `at` and `contains` agree with membership: on the table built by any
sequence of inserts into a fresh map, `contains(k)` is true exactly when
`at(k)` succeeds, `at(k)` returns the value of `k`'s first insertion, and for
a key never inserted `contains(k) = false` (`contains` never fails) while
`at(k)` fails with KeyNotFound (`none`). -/
theorem claim2_at_contains_agree (M : HashMap K V) (c : Nat) (hc : 0 < c)
    (ps : List (K × V)) (k : K) :
    (contains hash M k = true ↔ ∃ v, atKey hash M k = some v) ∧
    atKey hash (insertList hash (mkHashMap K V c) ps) k = chainFind k ps ∧
    (k ∉ ps.map Prod.fst →
      contains hash (insertList hash (mkHashMap K V c) ps) k = false ∧
      atKey hash (insertList hash (mkHashMap K V c) ps) k = none) := by
  have hwf0 := WF_mkHashMap hash c (K := K) (V := V) hc
  have hat := atKey_insertList hash hwf0 ps k
  rw [atKey_mkHashMap, none_or_left] at hat
  refine ⟨?_, hat, ?_⟩
  · rw [contains_eq_isSome]
    exact Option.isSome_iff_exists
  · intro hk
    have hnone : chainFind k ps = none := (chainFind_eq_none k ps).2 hk
    rw [contains_eq_isSome, hat, hnone]
    exact ⟨rfl, rfl⟩

/-- Witness for C2 at a concrete table: keys 1 and 2 inserted (1 twice), key
7 absent. -/
theorem claim2_witness :
    0 < 2 ∧
    ((contains natHash
          (insertList natHash (mkHashMap Nat Nat 2) [(1, 10), (2, 20), (1, 30)]) 7 =
          true ↔
        ∃ v, atKey natHash
          (insertList natHash (mkHashMap Nat Nat 2) [(1, 10), (2, 20), (1, 30)]) 7 =
          some v) ∧
      atKey natHash
          (insertList natHash (mkHashMap Nat Nat 2) [(1, 10), (2, 20), (1, 30)]) 7 =
        chainFind 7 [(1, 10), (2, 20), (1, 30)] ∧
      (7 ∉ [(1, 10), (2, 20), (1, 30)].map Prod.fst →
        contains natHash
          (insertList natHash (mkHashMap Nat Nat 2) [(1, 10), (2, 20), (1, 30)]) 7 =
          false ∧
        atKey natHash
          (insertList natHash (mkHashMap Nat Nat 2) [(1, 10), (2, 20), (1, 30)]) 7 =
          none)) :=
  ⟨by decide,
    claim2_at_contains_agree natHash
      (insertList natHash (mkHashMap Nat Nat 2) [(1, 10), (2, 20), (1, 30)]) 2
      (by decide) [(1, 10), (2, 20), (1, 30)] 7⟩

/-- C3: `erase` semantics and atomicity: on a present key `k`, `erase(k)`
returns the stored value, decrements the size by exactly one, afterwards
`contains(k)` is false, and neither the capacity nor any other key's mapping
changes; on an absent key it fails with KeyNotFound (`none`), producing no new
state, so the table is unchanged. -/
theorem claim3_erase_semantics (m : HashMap K V) (hwf : WF hash m) (k : K) :
    (∀ v, atKey hash m k = some v →
      ∃ m', erase hash m k = some (v, m') ∧
        size m' + 1 = size m ∧ m'.capacity = m.capacity ∧
        contains hash m' k = false ∧
        ∀ k', k' ≠ k → atKey hash m' k' = atKey hash m k') ∧
    (contains hash m k = false → erase hash m k = none) := by
  constructor
  · intro v hv
    obtain ⟨m', h1, hwf', hcap, hsz, hcon, hat, hperm⟩ := erase_spec hash hwf hv
    exact ⟨m', h1, hsz, hcap, hcon, hat⟩
  · intro h
    exact (erase_none_iff hash m k).2 h

/-- Witness for C3 at a concrete table holding 1 ↦ 10 and 2 ↦ 20. -/
theorem claim3_witness :
    WF natHash (insertList natHash (mkHashMap Nat Nat 2) [(1, 10), (2, 20)]) ∧
    ((∀ v, atKey natHash
          (insertList natHash (mkHashMap Nat Nat 2) [(1, 10), (2, 20)]) 1 = some v →
        ∃ m', erase natHash
            (insertList natHash (mkHashMap Nat Nat 2) [(1, 10), (2, 20)]) 1 =
            some (v, m') ∧
          size m' + 1 =
            size (insertList natHash (mkHashMap Nat Nat 2) [(1, 10), (2, 20)]) ∧
          m'.capacity =
            (insertList natHash (mkHashMap Nat Nat 2) [(1, 10), (2, 20)]).capacity ∧
          contains natHash m' 1 = false ∧
          ∀ k', k' ≠ 1 → atKey natHash m' k' =
            atKey natHash
              (insertList natHash (mkHashMap Nat Nat 2) [(1, 10), (2, 20)]) k') ∧
      (contains natHash
          (insertList natHash (mkHashMap Nat Nat 2) [(1, 10), (2, 20)]) 1 = false →
        erase natHash
          (insertList natHash (mkHashMap Nat Nat 2) [(1, 10), (2, 20)]) 1 = none)) :=
  ⟨by decide,
    claim3_erase_semantics natHash
      (insertList natHash (mkHashMap Nat Nat 2) [(1, 10), (2, 20)]) (by decide) 1⟩

/-- C4: `rehash(new_capacity)` preserves the logical map for every
`new_capacity ≥ 1`: every pair is still retrievable via `at` with its exact
value, no entry is dropped or added (the multiset of stored pairs is a
permutation of the old one), `size` is unchanged, and afterwards every stored
pair sits in bucket `hash(key) % new_capacity`. -/
theorem claim4_rehash_preserves (m : HashMap K V) (hwf : WF hash m) (nc : Nat)
    (hnc : 1 ≤ nc) :
    (∀ k, atKey hash (rehash hash m nc) k = atKey hash m k) ∧
    size (rehash hash m nc) = size m ∧
    (rehash hash m nc).data.flatten.Perm m.data.flatten ∧
    ∀ i, ∀ p ∈ (rehash hash m nc).data.getD i [], hash p.1 % nc = i :=
  ⟨fun k => atKey_rehash hash hwf nc hnc k, rfl,
    rehash_flatten_perm hash m nc hnc, rehash_bucket hash m nc hnc⟩

/-- Witness for C4: rehashing a concrete 3-entry capacity-2 table to
capacity 5. -/
theorem claim4_witness :
    (WF natHash (insertList natHash (mkHashMap Nat Nat 2) [(1, 10), (2, 20)]) ∧
      1 ≤ 5) ∧
    ((∀ k, atKey natHash
        (rehash natHash (insertList natHash (mkHashMap Nat Nat 2) [(1, 10), (2, 20)]) 5)
        k =
        atKey natHash (insertList natHash (mkHashMap Nat Nat 2) [(1, 10), (2, 20)]) k) ∧
      size (rehash natHash
          (insertList natHash (mkHashMap Nat Nat 2) [(1, 10), (2, 20)]) 5) =
        size (insertList natHash (mkHashMap Nat Nat 2) [(1, 10), (2, 20)]) ∧
      (rehash natHash (insertList natHash (mkHashMap Nat Nat 2) [(1, 10), (2, 20)])
          5).data.flatten.Perm
        (insertList natHash (mkHashMap Nat Nat 2) [(1, 10), (2, 20)]).data.flatten ∧
      ∀ i, ∀ p ∈ (rehash natHash
          (insertList natHash (mkHashMap Nat Nat 2) [(1, 10), (2, 20)]) 5).data.getD
          i [], natHash p.1 % 5 = i) :=
  ⟨⟨by decide, by decide⟩,
    claim4_rehash_preserves natHash
      (insertList natHash (mkHashMap Nat Nat 2) [(1, 10), (2, 20)]) (by decide) 5
      (by decide)⟩

/-- C5: exact growth trigger: an insert of a new key doubles the capacity if
and only if, with the size already incremented, `2 * size > 3 * capacity`
(the embedded form of `size / capacity > 1.5`); when the threshold is not
exceeded the insert is exactly the node-link step and the capacity stays put;
the size always grows by one.  The capacity-2 concrete scenario is checked in
the witness. -/
theorem claim5_growth_trigger (m : HashMap K V) (hwf : WF hash m) (k : K) (v : V)
    (hnew : contains hash m k = false) :
    ((insert hash m k v).capacity = m.capacity * 2 ↔
      2 * (m.sz + 1) > 3 * m.capacity) ∧
    (¬ 2 * (m.sz + 1) > 3 * m.capacity →
      insert hash m k v = insertNode hash m k v ∧
      (insert hash m k v).capacity = m.capacity) ∧
    size (insert hash m k v) = size m + 1 := by
  refine ⟨?_, ?_, sz_insert_new hash hnew v⟩
  · rw [capacity_insert_new hash hnew v]
    by_cases hcond : 2 * (m.sz + 1) > 3 * m.capacity
    · rw [if_pos hcond]
      exact ⟨fun _ => hcond, fun _ => rfl⟩
    · rw [if_neg hcond]
      constructor
      · intro heq
        have := hwf.1
        omega
      · intro h
        exact absurd h hcond
  · intro hcond
    rw [insert_eq_of_not_contains hash v hnew, if_neg hcond]
    exact ⟨rfl, rfl⟩

/-- Witness for C5, the spec's concrete scenario: after ("a",1), ("b",2),
("c",3) into a capacity-2 table the load factor is exactly 1.5 and no rehash
has happened (size 3, capacity still 2); inserting ("d",4) exceeds it,
capacity doubles to 4, and all four keys stay retrievable with their
values. -/
theorem claim5_witness :
    (WF strHash exampleMap3 ∧ contains strHash exampleMap3 "d" = false ∧
      size exampleMap3 = 3 ∧ exampleMap3.capacity = 2 ∧
      (insert strHash exampleMap3 "d" 4).capacity = 4 ∧
      atKey strHash (insert strHash exampleMap3 "d" 4) "a" = some 1 ∧
      atKey strHash (insert strHash exampleMap3 "d" 4) "b" = some 2 ∧
      atKey strHash (insert strHash exampleMap3 "d" 4) "c" = some 3 ∧
      atKey strHash (insert strHash exampleMap3 "d" 4) "d" = some 4) ∧
    (((insert strHash exampleMap3 "d" 4).capacity = exampleMap3.capacity * 2 ↔
        2 * (exampleMap3.sz + 1) > 3 * exampleMap3.capacity) ∧
      (¬ 2 * (exampleMap3.sz + 1) > 3 * exampleMap3.capacity →
        insert strHash exampleMap3 "d" 4 = insertNode strHash exampleMap3 "d" 4 ∧
        (insert strHash exampleMap3 "d" 4).capacity = exampleMap3.capacity) ∧
      size (insert strHash exampleMap3 "d" 4) = size exampleMap3 + 1) :=
  ⟨by decide,
    claim5_growth_trigger strHash exampleMap3 (by decide) "d" 4 (by decide)⟩

/-- C6: deep-copy independence: the copy constructor yields a table with the
same capacity, size and mappings, and the chains are rebuilt node by node
(`copyChain`), so no node is shared; clearing the source afterwards does not
affect the copy (the copy's lookups still equal the source's pre-clear
lookups while the cleared source answers `none`); `operator=` from a distinct
source likewise reproduces capacity, size and mappings, and self-assignment
(the `this == &other` guard, `isSelf = true`) returns the table unchanged. -/
theorem claim6_deep_copy_independence (m t s : HashMap K V) (k : K) :
    (copy m).capacity = m.capacity ∧
    size (copy m) = size m ∧
    atKey hash (copy m) k = atKey hash m k ∧
    contains hash (copy m) k = contains hash m k ∧
    atKey hash (clear m) k = none ∧
    assign t s true = t ∧
    (assign t s false).capacity = s.capacity ∧
    size (assign t s false) = size s ∧
    atKey hash (assign t s false) k = atKey hash s k := by
  have hcd : (copy m).data = m.data := map_copyChain m.data
  have had : (assign t s false).data = s.data := map_copyChain s.data
  exact ⟨rfl, rfl, atKey_congr hash hcd rfl k, contains_congr hash hcd rfl k,
    atKey_clear hash m k, rfl, rfl, rfl, atKey_congr hash had rfl k⟩

/-- C7: iteration completeness: on a well-formed table with N entries,
`begin()` followed by repeated `next()` yields exactly the stored pairs (all
fuel budgets of at least N give the same output, so the (N+1)-st call returns
false), which cover every present key exactly once with its associated value;
on an empty table the first `next()` after `begin()` returns false. -/
theorem claim7_iteration_complete (m : HashMap K V) (hwf : WF hash m) :
    (∀ fuel, size m ≤ fuel → runIter (begin m) fuel = m.data.flatten) ∧
    (runIter (begin m) (size m)).length = size m ∧
    (∀ k v, (k, v) ∈ runIter (begin m) (size m) ↔ atKey hash m k = some v) ∧
    ((runIter (begin m) (size m)).map Prod.fst).Nodup ∧
    (size m = 0 → next (begin m) = none) := by
  obtain ⟨htv, hcinv⟩ := begin_toVisit (m := m) hwf.2.1
  have hlen' : (begin m).data.length = (begin m).capacity := hwf.2.1
  have hszf : m.data.flatten.length = size m := hwf.2.2.1.symm
  have hrun : ∀ fuel, size m ≤ fuel → runIter (begin m) fuel = m.data.flatten := by
    intro fuel hf
    have hr := runIter_toVisit fuel (begin m) hlen' hcinv
      (by rw [htv, hszf]; exact hf)
    rw [hr, htv]
  refine ⟨hrun, ?_, ?_, ?_, ?_⟩
  · rw [hrun (size m) le_rfl, hszf]
  · intro k v
    rw [hrun (size m) le_rfl]
    exact (atKey_some_iff hash hwf k v).symm
  · rw [hrun (size m) le_rfl]
    exact hwf.2.2.2.1
  · intro hsz0
    have hflat : m.data.flatten = [] :=
      List.eq_nil_of_length_eq_zero (by rw [hszf]; exact hsz0)
    have htv0 : toVisit (begin m) = [] := by rw [htv, hflat]
    rw [toVisit] at htv0
    exact next_of_curr_nil (List.append_eq_nil.1 htv0).1

/-- Witness for C7 at a concrete 3-entry capacity-3 table with one collision
(keys 1, 2, 5 under the identity hash). -/
theorem claim7_witness :
    WF natHash (insertList natHash (mkHashMap Nat Nat 3) [(1, 10), (2, 20), (5, 50)]) ∧
    ((∀ fuel,
        size (insertList natHash (mkHashMap Nat Nat 3) [(1, 10), (2, 20), (5, 50)]) ≤
          fuel →
        runIter (begin (insertList natHash (mkHashMap Nat Nat 3)
            [(1, 10), (2, 20), (5, 50)])) fuel =
          (insertList natHash (mkHashMap Nat Nat 3)
            [(1, 10), (2, 20), (5, 50)]).data.flatten) ∧
      (runIter (begin (insertList natHash (mkHashMap Nat Nat 3)
          [(1, 10), (2, 20), (5, 50)]))
          (size (insertList natHash (mkHashMap Nat Nat 3)
            [(1, 10), (2, 20), (5, 50)]))).length =
        size (insertList natHash (mkHashMap Nat Nat 3) [(1, 10), (2, 20), (5, 50)]) ∧
      (∀ k v, (k, v) ∈ runIter (begin (insertList natHash (mkHashMap Nat Nat 3)
            [(1, 10), (2, 20), (5, 50)]))
            (size (insertList natHash (mkHashMap Nat Nat 3)
              [(1, 10), (2, 20), (5, 50)])) ↔
        atKey natHash (insertList natHash (mkHashMap Nat Nat 3)
          [(1, 10), (2, 20), (5, 50)]) k = some v) ∧
      ((runIter (begin (insertList natHash (mkHashMap Nat Nat 3)
          [(1, 10), (2, 20), (5, 50)]))
          (size (insertList natHash (mkHashMap Nat Nat 3)
            [(1, 10), (2, 20), (5, 50)]))).map Prod.fst).Nodup ∧
      (size (insertList natHash (mkHashMap Nat Nat 3) [(1, 10), (2, 20), (5, 50)]) =
          0 →
        next (begin (insertList natHash (mkHashMap Nat Nat 3)
          [(1, 10), (2, 20), (5, 50)])) = none)) :=
  ⟨by decide,
    claim7_iteration_complete natHash
      (insertList natHash (mkHashMap Nat Nat 3) [(1, 10), (2, 20), (5, 50)])
      (by decide)⟩

/-- C8: `clear()` empties the table but keeps its capacity: afterwards
`size()` is 0, `empty()` is true, and for every key `contains` is false and
`at` fails with KeyNotFound (`none`); the capacity is exactly what it was. -/
theorem claim8_clear_empties (m : HashMap K V) (k : K) :
    size (clear m) = 0 ∧ empty (clear m) = true ∧
    contains hash (clear m) k = false ∧
    atKey hash (clear m) k = none ∧
    (clear m).capacity = m.capacity :=
  ⟨rfl, rfl, contains_clear hash m k, atKey_clear hash m k, rfl⟩

/-- C9: implicit load-factor invariant: starting from a table constructed
with capacity ≥ 1 and applying any sequence of public operations, after every
completed operation `2 * size ≤ 3 * capacity` (i.e. the load factor is at
most 1.5); moreover a single further insert changes the capacity to either
itself or its double, and the bound still holds after that insert. -/
theorem claim9_load_factor_invariant (c : Nat) (hc : 1 ≤ c)
    (ops : List (MapOp K V)) (k : K) (v : V) :
    2 * size (applyOps hash (mkHashMap K V c) ops) ≤
      3 * (applyOps hash (mkHashMap K V c) ops).capacity ∧
    ((insert hash (applyOps hash (mkHashMap K V c) ops) k v).capacity =
        (applyOps hash (mkHashMap K V c) ops).capacity ∨
      (insert hash (applyOps hash (mkHashMap K V c) ops) k v).capacity =
        (applyOps hash (mkHashMap K V c) ops).capacity * 2) ∧
    2 * size (insert hash (applyOps hash (mkHashMap K V c) ops) k v) ≤
      3 * (insert hash (applyOps hash (mkHashMap K V c) ops) k v).capacity := by
  have h0 : 0 < (mkHashMap K V c).capacity := hc
  have h1 : 2 * (mkHashMap K V c).sz ≤ 3 * (mkHashMap K V c).capacity := by
    show 2 * 0 ≤ 3 * c
    omega
  obtain ⟨g1, g2⟩ := applyOps_bound hash h0 h1 ops
  refine ⟨g2, insert_capacity_or hash _ k v, ?_⟩
  exact (applyOp_bound hash g1 g2 (MapOp.ins k v)).2

/-- Witness for C9 on a concrete operation sequence: three inserts (one
forcing a rehash), an erase, a cursor reset and step, a clear, and a final
insert, starting from capacity 2. -/
theorem claim9_witness :
    1 ≤ 2 ∧
    (2 * size (applyOps natHash (mkHashMap Nat Nat 2)
        [MapOp.ins 1 10, MapOp.ins 2 20, MapOp.ins 3 30, MapOp.del 2,
          MapOp.beg, MapOp.nxt, MapOp.clr, MapOp.ins 5 50]) ≤
      3 * (applyOps natHash (mkHashMap Nat Nat 2)
        [MapOp.ins 1 10, MapOp.ins 2 20, MapOp.ins 3 30, MapOp.del 2,
          MapOp.beg, MapOp.nxt, MapOp.clr, MapOp.ins 5 50]).capacity ∧
      ((insert natHash (applyOps natHash (mkHashMap Nat Nat 2)
          [MapOp.ins 1 10, MapOp.ins 2 20, MapOp.ins 3 30, MapOp.del 2,
            MapOp.beg, MapOp.nxt, MapOp.clr, MapOp.ins 5 50]) 7 70).capacity =
          (applyOps natHash (mkHashMap Nat Nat 2)
            [MapOp.ins 1 10, MapOp.ins 2 20, MapOp.ins 3 30, MapOp.del 2,
              MapOp.beg, MapOp.nxt, MapOp.clr, MapOp.ins 5 50]).capacity ∨
        (insert natHash (applyOps natHash (mkHashMap Nat Nat 2)
          [MapOp.ins 1 10, MapOp.ins 2 20, MapOp.ins 3 30, MapOp.del 2,
            MapOp.beg, MapOp.nxt, MapOp.clr, MapOp.ins 5 50]) 7 70).capacity =
          (applyOps natHash (mkHashMap Nat Nat 2)
            [MapOp.ins 1 10, MapOp.ins 2 20, MapOp.ins 3 30, MapOp.del 2,
              MapOp.beg, MapOp.nxt, MapOp.clr, MapOp.ins 5 50]).capacity * 2) ∧
      2 * size (insert natHash (applyOps natHash (mkHashMap Nat Nat 2)
          [MapOp.ins 1 10, MapOp.ins 2 20, MapOp.ins 3 30, MapOp.del 2,
            MapOp.beg, MapOp.nxt, MapOp.clr, MapOp.ins 5 50]) 7 70) ≤
        3 * (insert natHash (applyOps natHash (mkHashMap Nat Nat 2)
          [MapOp.ins 1 10, MapOp.ins 2 20, MapOp.ins 3 30, MapOp.del 2,
            MapOp.beg, MapOp.nxt, MapOp.clr, MapOp.ins 5 50]) 7 70).capacity) :=
  ⟨by decide,
    claim9_load_factor_invariant natHash 2 (by decide)
      [MapOp.ins 1 10, MapOp.ins 2 20, MapOp.ins 3 30, MapOp.del 2,
        MapOp.beg, MapOp.nxt, MapOp.clr, MapOp.ins 5 50] 7 70⟩

/-- C10: iterator purity: any interleaving of `begin` and `next` calls leaves
the logical contents untouched — the bucket array, size and capacity are
identical afterwards, and so are `at(k)` and `contains(k)` for every key
(only the two cursor fields may differ). -/
theorem claim10_iterator_purity (m : HashMap K V) (ops : List CursorOp) (k : K) :
    (runCursor m ops).data = m.data ∧
    size (runCursor m ops) = size m ∧
    (runCursor m ops).capacity = m.capacity ∧
    atKey hash (runCursor m ops) k = atKey hash m k ∧
    contains hash (runCursor m ops) k = contains hash m k := by
  obtain ⟨h1, h2, h3⟩ := runCursor_pure m ops
  exact ⟨h1, h2, h3, atKey_congr hash h1 h3 k, contains_congr hash h1 h3 k⟩

end HashMapVerif
